import Mathlib

/-!
Verification of the frame diff engine in `partial-frame-utils-rs` (`src/lib.rs`).

The engine (`FrameContext`) stores a baseline frame, a timestamp, cached
width/height and a counter of partial pushes since the last keyframe.
`push` either returns the whole pushed frame as a keyframe (when
`current >= limits`) or diffs the pushed frame against the baseline,
marks a 16x16 dirty-block bitmap, and returns the cropped dirty tiles.

Modelling conventions of the shallow embedding:
* `image::ImageBuffer` becomes `Image`: width, height and a total pixel
  function; pixels are read only at in-bounds coordinates.
* `u16` bitmap words are `Nat` kept below `2 ^ 16` by construction; the
  `[u16; 16]` array is a `List Nat` of length 16 (`List.set` / `List.getD`
  model the in-range index accesses of the source).
* `usize` is 64-bit: the mask `!(N-1)` of `round_to_size` is XOR with the
  all-ones 64-bit word.
* `Duration` timestamps are opaque to the algorithm and are modelled as `Nat`.
* The `trace!` dump of the bitmap (`print_bits_ln` and the `dump` string) is
  output-only diagnostics with no effect on state or result; it is omitted.
-/

/-- `round_to_size::<N>(len)` from `src/lib.rs`: `((len + (N - 1)) & !(N - 1)) / N`
on 64-bit `usize`, with the complement `!(N - 1)` modelled as XOR against the
all-ones 64-bit word. -/
def round_to_size (N len : Nat) : Nat :=
  ((len + (N - 1)) &&& ((2 ^ 64 - 1) ^^^ (N - 1))) / N

/-- An `image::ImageBuffer` with pixel type `Pix`: dimensions plus a pixel
lookup. Only coordinates with `x < width` and `y < height` are ever read. -/
structure Image (Pix : Type) where
  width : Nat
  height : Nat
  pixel : Nat → Nat → Pix

/-- `imageproc::utils::pixel_diffs(&frame, &self.frame, |p, q| p != q)`:
the coordinates (row-major) at which the two frames hold unequal pixels.
Faithful when `actual` and `expected` have equal dimensions. `push` performs
no dimension check, and on a pushed frame larger than the baseline the crate
panics in an out-of-bounds `get_pixel`, whereas this model reads the total
`pixel` function and returns normally; theorems about mismatched frames must
therefore confine themselves to the keyframe branch, which reads no pixels. -/
def pixel_diffs {Pix : Type} [DecidableEq Pix] (actual expected : Image Pix) :
    List (Nat × Nat) :=
  (List.range actual.height).flatMap fun y =>
    (List.range actual.width).filterMap fun x =>
      if actual.pixel x y = expected.pixel x y then none else some (x, y)

/-- `image::imageops::crop_imm(&img, x, y, w, h).to_image()`: the crate clamps
the requested rectangle to the buffer bounds (x and y are clamped into the
image, then the extent is clamped to the pixels remaining from there). -/
def crop_imm {Pix : Type} (img : Image Pix) (x y w h : Nat) : Image Pix :=
  let x0 := min x img.width
  let y0 := min y img.height
  let h0 := min h (img.height - y0)
  let w0 := min w (img.width - x0)
  { width := w0, height := h0, pixel := fun i j => img.pixel (x0 + i) (y0 + j) }

/-- `u16::reverse_bits`: bit `i` of the input becomes bit `15 - i` of the
result (inputs are bitmap words, below `2 ^ 16`). -/
def reverse_bits (v : Nat) : Nat :=
  (List.range 16).foldl (fun acc i => acc ||| (((v >>> i) &&& 1) <<< (15 - i))) 0

/-- The marking loop of `push`: starting from `[0u16; 16]`, for each differing
pixel set bit `(BLOCK_SIZE - 1) - (diff.x / x_base)` of word `diff.y / y_base`. -/
def mark_diffs (res : List (Nat × Nat)) (x_base y_base : Nat) : List Nat :=
  res.foldl
    (fun bm d =>
      bm.set (d.2 / y_base)
        (bm.getD (d.2 / y_base) 0 ||| (1 <<< (15 - d.1 / x_base))))
    (List.replicate 16 0)

/-- A `PartialFrame` tile: pixel origin and the cropped buffer. -/
structure PartialFrame (Pix : Type) where
  x : Nat
  y : Nat
  image : Image Pix

/-- The scan loop of `push`: for each grid row `y_idx` and column `x_idx`,
reverse the row's bitmap word and, when bit `x_idx` is set, crop the block at
`(x_idx * x_base, y_idx * y_base)` out of the pushed frame. -/
def collect_tiles {Pix : Type} (frame : Image Pix) (bm : List Nat)
    (x_base y_base : Nat) : List (PartialFrame Pix) :=
  (List.range 16).flatMap fun y_idx =>
    (List.range 16).filterMap fun x_idx =>
      let bits := reverse_bits (bm.getD y_idx 0)
      if bits = 0 then none
      else if bits &&& (1 <<< x_idx) ≠ 0 then
        some ⟨x_idx * x_base, y_idx * y_base,
          crop_imm frame (x_idx * x_base) (y_idx * y_base) x_base y_base⟩
      else none

/-- The result of a push: `Frame::KeyFrame` or `Frame::PartialFrame`. -/
inductive Frame (Pix : Type) where
  | KeyFrame : Image Pix → Frame Pix
  | PartialFrame : List (PartialFrame Pix) → Frame Pix

/-- The engine state `FrameContext`. -/
structure FrameContext (Pix : Type) where
  current : Nat
  limits : Nat
  timestamp : Nat
  frame : Image Pix
  width : Nat
  height : Nat

/-- `FrameContext::new`: store the initial frame as baseline, cache its
dimensions, start the counter at 0. -/
def FrameContext.new {Pix : Type} (timestamp limits : Nat) (frame : Image Pix) :
    FrameContext Pix :=
  { current := 0, limits := limits, timestamp := timestamp,
    width := frame.width, height := frame.height, frame := frame }

/-- `FrameContext::push`: the sole mutating operation, modelled by explicit
state passing — it returns the updated context together with the result. -/
def FrameContext.push {Pix : Type} [DecidableEq Pix] (ctx : FrameContext Pix)
    (timestamp : Nat) (frame : Image Pix) : FrameContext Pix × Frame Pix :=
  if ctx.current < ctx.limits then
    let y_base := round_to_size 16 ctx.height
    let x_base := round_to_size 16 ctx.width
    let res := pixel_diffs frame ctx.frame
    let frames := collect_tiles frame (mark_diffs res x_base y_base) x_base y_base
    ({ ctx with current := ctx.current + 1, timestamp := timestamp, frame := frame },
      Frame.PartialFrame frames)
  else
    ({ ctx with current := 0, timestamp := timestamp, frame := frame },
      Frame.KeyFrame frame)

/-! Concrete inputs used by the witness theorems. -/

/-- A 1x1 all-zero frame. -/
def img1 : Image Nat := ⟨1, 1, fun _ _ => 0⟩

/-- A 2x2 all-zero frame. -/
def img2 : Image Nat := ⟨2, 2, fun _ _ => 0⟩

/-- A 2x2 frame differing from `img2` exactly at pixel (1, 1). -/
def img2d : Image Nat := ⟨2, 2, fun x y => if x = 1 ∧ y = 1 then 1 else 0⟩

/-- A 3x3 all-zero frame (dimensions differ from `img2`). -/
def img3 : Image Nat := ⟨3, 3, fun _ _ => 0⟩

/-- A degenerate 0x0 frame. -/
def img0 : Image Nat := ⟨0, 0, fun _ _ => 0⟩

/-- Engine seeded with `img2`, limit 10: partial branch is taken first. -/
def ctxP : FrameContext Nat := FrameContext.new 1 10 img2

/-- Engine seeded with `img2`, limit 0: every push is a keyframe. -/
def ctxK : FrameContext Nat := FrameContext.new 1 0 img2

/-- Engine seeded with the degenerate `img0`, limit 10. -/
def ctxZ : FrameContext Nat := FrameContext.new 1 10 img0

/-! Helper lemmas about `round_to_size`. -/

/-- On inputs where `len + 15` fits in `usize`, the masking trick of
`round_to_size::<16>` computes the ceiling division `(len + 15) / 16`. -/
theorem round_to_size_16_eq (len : Nat) (h : len + 15 < 2 ^ 64) :
    round_to_size 16 len = (len + 15) / 16 := by
  have hmask : (len + 15) &&& ((2 ^ 64 - 1) ^^^ (16 - 1)) = 2 ^ 4 * ((len + 15) / 2 ^ 4) := by
    apply Nat.eq_of_testBit_eq
    intro i
    have h15 : (16 : Nat) - 1 = 2 ^ 4 - 1 := by norm_num
    rw [Nat.testBit_and, Nat.testBit_xor, h15, Nat.testBit_two_pow_sub_one,
      Nat.testBit_two_pow_sub_one, Nat.testBit_mul_pow_two,
      ← Nat.shiftRight_eq_div_pow, Nat.testBit_shiftRight]
    rcases Nat.lt_or_ge i 4 with hi | hi
    · have hi64 : i < 64 := by omega
      simp [hi, hi64]
    · rcases Nat.lt_or_ge i 64 with hi64 | hi64
      · have h4 : 4 + (i - 4) = i := by omega
        simp [hi64, Nat.not_lt.mpr hi, hi, h4]
      · have hb : (len + 15).testBit i = false :=
          Nat.testBit_lt_two_pow
            (Nat.lt_of_lt_of_le h (Nat.pow_le_pow_right (by norm_num) hi64))
        have h4 : 4 + (i - 4) = i := by omega
        simp [hb, h4, Nat.not_lt.mpr hi64, Nat.not_lt.mpr hi, hi]
  show ((len + (16 - 1)) &&& ((2 ^ 64 - 1) ^^^ (16 - 1))) / 16 = (len + 15) / 16
  norm_num only at hmask ⊢
  rw [hmask]
  omega

/-- Sixteen blocks of `round_to_size 16 len` pixels cover all `len` pixels. -/
theorem le_16_mul_round (len : Nat) (h : len + 15 < 2 ^ 64) :
    len ≤ 16 * round_to_size 16 len := by
  rw [round_to_size_16_eq len h]
  have h1 := Nat.div_add_mod (len + 15) 16
  have h2 := Nat.mod_lt (len + 15) (show 0 < 16 by norm_num)
  omega

/-- A positive dimension yields a positive block extent. -/
theorem round_pos (len : Nat) (h : len + 15 < 2 ^ 64) (hp : 0 < len) :
    0 < round_to_size 16 len := by
  rw [round_to_size_16_eq len h]
  exact Nat.div_pos (by omega) (by norm_num)

/-! Helper lemmas about `pixel_diffs`. -/

/-- Membership in the diff list: exactly the in-bounds coordinates at which
the two frames hold unequal pixels. -/
theorem mem_pixel_diffs {Pix : Type} [DecidableEq Pix] (a b : Image Pix) (d : Nat × Nat) :
    d ∈ pixel_diffs a b ↔
      d.1 < a.width ∧ d.2 < a.height ∧ a.pixel d.1 d.2 ≠ b.pixel d.1 d.2 := by
  obtain ⟨x, y⟩ := d
  simp only [pixel_diffs, List.mem_flatMap, List.mem_filterMap, List.mem_range]
  constructor
  · rintro ⟨y1, hy1, x1, hx1, heq⟩
    by_cases hp : a.pixel x1 y1 = b.pixel x1 y1
    · rw [if_pos hp] at heq
      cases heq
    · rw [if_neg hp] at heq
      have hxy := Option.some.inj heq
      injection hxy with hx hy
      subst hx
      subst hy
      exact ⟨hx1, hy1, hp⟩
  · rintro ⟨hx, hy, hne⟩
    exact ⟨y, hy, x, hx, by rw [if_neg hne]⟩

/-- Frames that agree on every in-bounds pixel produce an empty diff list. -/
theorem pixel_diffs_nil {Pix : Type} [DecidableEq Pix] (a b : Image Pix)
    (h : ∀ x, x < a.width → ∀ y, y < a.height → a.pixel x y = b.pixel x y) :
    pixel_diffs a b = [] := by
  rw [List.eq_nil_iff_forall_not_mem]
  intro d hd
  rw [mem_pixel_diffs] at hd
  exact hd.2.2 (h _ hd.1 _ hd.2.1)

/-! Helper lemmas about the dirty-block bitmap. -/

/-- Folding the marking step over a diff list: a bit of a bitmap word is set
iff it was set initially or some differing pixel maps to that word and bit. -/
theorem mark_foldl_testBit (x_base y_base : Nat) (res : List (Nat × Nat)) :
    ∀ (bm : List Nat), bm.length = 16 → ∀ r, r < 16 → ∀ p,
      (Nat.testBit ((res.foldl
          (fun bm d =>
            bm.set (d.2 / y_base)
              (bm.getD (d.2 / y_base) 0 ||| (1 <<< (15 - d.1 / x_base)))) bm).getD r 0) p ↔
        (Nat.testBit (bm.getD r 0) p ∨
          ∃ d ∈ res, d.2 / y_base = r ∧ 15 - d.1 / x_base = p)) := by
  induction res with
  | nil =>
    intro bm _ r _ p
    simp
  | cons d rest ih =>
    intro bm hlen r hr p
    rw [List.foldl_cons]
    rw [ih _ (by simp [hlen]) r hr p]
    by_cases hidx : d.2 / y_base = r
    · have hget : ((bm.set (d.2 / y_base)
          (bm.getD (d.2 / y_base) 0 ||| (1 <<< (15 - d.1 / x_base)))).getD r 0) =
          bm.getD r 0 ||| (1 <<< (15 - d.1 / x_base)) := by
        rw [hidx]
        simp only [List.getD_eq_getElem?_getD]
        rw [List.getElem?_set_self (by omega)]
        rfl
      rw [hget, Nat.shiftLeft_eq, one_mul, Nat.testBit_or, Nat.testBit_two_pow]
      constructor
      · intro hcase
        rcases hcase with hor | hrest
        · rcases Bool.or_eq_true .. |>.mp hor with hold | hnew
          · exact Or.inl hold
          · exact Or.inr ⟨d, List.mem_cons_self .., hidx, of_decide_eq_true hnew⟩
        · rcases hrest with ⟨d1, hd1, h1, h2⟩
          exact Or.inr ⟨d1, List.mem_cons_of_mem _ hd1, h1, h2⟩
      · intro hcase
        rcases hcase with hold | ⟨d1, hd1, h1, h2⟩
        · exact Or.inl (by rw [hold]; simp)
        · rcases List.mem_cons.mp hd1 with rfl | hd1r
          · exact Or.inl (by simp [h2])
          · exact Or.inr ⟨d1, hd1r, h1, h2⟩
    · have hget : ((bm.set (d.2 / y_base)
          (bm.getD (d.2 / y_base) 0 ||| (1 <<< (15 - d.1 / x_base)))).getD r 0) =
          bm.getD r 0 := by
        simp only [List.getD_eq_getElem?_getD]
        rw [List.getElem?_set_ne hidx]
      rw [hget]
      constructor
      · intro hcase
        rcases hcase with hold | ⟨d1, hd1, h1, h2⟩
        · exact Or.inl hold
        · exact Or.inr ⟨d1, List.mem_cons_of_mem _ hd1, h1, h2⟩
      · intro hcase
        rcases hcase with hold | ⟨d1, hd1, h1, h2⟩
        · exact Or.inl hold
        · rcases List.mem_cons.mp hd1 with rfl | hd1r
          · exact absurd h1 hidx
          · exact Or.inr ⟨d1, hd1r, h1, h2⟩

/-- Bit `15 - c` of bitmap word `r` is set iff some differing pixel lies in
grid row `r` and grid column mapping to that bit. -/
theorem mark_diffs_testBit (res : List (Nat × Nat)) (x_base y_base r : Nat)
    (hr : r < 16) (p : Nat) :
    Nat.testBit ((mark_diffs res x_base y_base).getD r 0) p ↔
      ∃ d ∈ res, d.2 / y_base = r ∧ 15 - d.1 / x_base = p := by
  rw [mark_diffs, mark_foldl_testBit x_base y_base res (List.replicate 16 0)
    (by simp) r hr p]
  have hz : (List.replicate 16 (0 : Nat)).getD r 0 = 0 := by
    rw [List.getD_eq_getElem?_getD, List.getElem?_replicate]
    simp [hr]
  rw [hz]
  simp

/-- Folding bitwise-or over a list: a bit of the result is set iff it is set
in the accumulator or in some list element's contribution. -/
theorem or_foldl_testBit (f : Nat → Nat) (l : List Nat) :
    ∀ (acc p : Nat),
      (Nat.testBit (l.foldl (fun a i => a ||| f i) acc) p ↔
        (Nat.testBit acc p ∨ ∃ i ∈ l, Nat.testBit (f i) p)) := by
  induction l with
  | nil =>
    intro acc p
    simp
  | cons j rest ih =>
    intro acc p
    rw [List.foldl_cons, ih]
    simp only [Nat.testBit_or, Bool.or_eq_true, List.mem_cons]
    constructor
    · rintro ((h | h) | ⟨i, hi, h⟩)
      · exact Or.inl h
      · exact Or.inr ⟨j, Or.inl rfl, h⟩
      · exact Or.inr ⟨i, Or.inr hi, h⟩
    · rintro (h | ⟨i, (rfl | hi), h⟩)
      · exact Or.inl (Or.inl h)
      · exact Or.inl (Or.inr h)
      · exact Or.inr ⟨i, hi, h⟩

/-- `u16::reverse_bits` exchanges bit `p` with bit `15 - p`. -/
theorem reverse_bits_testBit (v p : Nat) (hp : p < 16) :
    (Nat.testBit (reverse_bits v) p ↔ Nat.testBit v (15 - p)) := by
  rw [reverse_bits, or_foldl_testBit]
  simp only [Nat.zero_testBit, Bool.false_eq_true, false_or, List.mem_range]
  have hbit1 : ∀ q : Nat, Nat.testBit 1 q = decide (0 = q) := by
    intro q
    rw [← Nat.pow_zero 2, Nat.testBit_two_pow]
  constructor
  · rintro ⟨i, hi, hb⟩
    rw [Nat.testBit_shiftLeft] at hb
    rcases Bool.and_eq_true .. |>.mp hb with ⟨hge, hb2⟩
    rw [Nat.testBit_and, hbit1] at hb2
    rcases Bool.and_eq_true .. |>.mp hb2 with ⟨hb3, hz⟩
    have hz0 : p - (15 - i) = 0 := (of_decide_eq_true hz).symm
    have hge' : 15 - i ≤ p := by
      have := of_decide_eq_true hge
      omega
    have hpi : p = 15 - i := by omega
    have hip : i = 15 - p := by omega
    rw [Nat.testBit_shiftRight] at hb3
    have : i + (p - (15 - i)) = i := by omega
    rw [this] at hb3
    rw [← hip]
    exact hb3
  · intro hb
    refine ⟨15 - p, by omega, ?_⟩
    rw [Nat.testBit_shiftLeft, Nat.testBit_and, Nat.testBit_shiftRight, hbit1]
    have h1 : 15 - (15 - p) = p := by omega
    rw [h1]
    simp [Nat.sub_self, hb]

/-- `a &&& (1 <<< k)` is nonzero exactly when bit `k` of `a` is set. -/
theorem and_shift_ne_zero (a k : Nat) :
    (a &&& (1 <<< k) ≠ 0 ↔ Nat.testBit a k) := by
  rw [Nat.shiftLeft_eq, one_mul]
  constructor
  · intro h
    obtain ⟨i, hi⟩ := Nat.ne_zero_implies_bit_true h
    rw [Nat.testBit_and, Nat.testBit_two_pow] at hi
    rcases Bool.and_eq_true .. |>.mp hi with ⟨h1, h2⟩
    have hk : k = i := of_decide_eq_true h2
    rw [hk]
    exact h1
  · intro h hz
    have hbit : Nat.testBit (a &&& 2 ^ k) k = false := by
      rw [hz]
      exact Nat.zero_testBit k
    rw [Nat.testBit_and, Nat.testBit_two_pow] at hbit
    simp [h] at hbit

/-- Membership in the collected tile list: exactly one tile per grid cell
whose (bit-reversed) bitmap bit is set. -/
theorem mem_collect_tiles {Pix : Type} (frame : Image Pix) (bm : List Nat)
    (xb yb : Nat) (t : PartialFrame Pix) :
    t ∈ collect_tiles frame bm xb yb ↔
      ∃ r, r < 16 ∧ ∃ c, c < 16 ∧ Nat.testBit (bm.getD r 0) (15 - c) ∧
        t = ⟨c * xb, r * yb, crop_imm frame (c * xb) (r * yb) xb yb⟩ := by
  simp only [collect_tiles, List.mem_flatMap, List.mem_filterMap, List.mem_range]
  constructor
  · rintro ⟨r, hr, c, hc, heq⟩
    by_cases h0 : reverse_bits (bm.getD r 0) = 0
    · rw [if_pos h0] at heq
      cases heq
    · rw [if_neg h0] at heq
      by_cases hcond : reverse_bits (bm.getD r 0) &&& (1 <<< c) ≠ 0
      · rw [if_pos hcond] at heq
        have hbit : Nat.testBit (reverse_bits (bm.getD r 0)) c :=
          (and_shift_ne_zero _ _).mp hcond
        rw [reverse_bits_testBit _ _ hc] at hbit
        exact ⟨r, hr, c, hc, hbit, (Option.some.inj heq).symm⟩
      · rw [if_neg hcond] at heq
        cases heq
  · rintro ⟨r, hr, c, hc, hbit, ht⟩
    refine ⟨r, hr, c, hc, ?_⟩
    have hbit1 : Nat.testBit (reverse_bits (bm.getD r 0)) c :=
      (reverse_bits_testBit _ _ hc).mpr hbit
    have hcond : reverse_bits (bm.getD r 0) &&& (1 <<< c) ≠ 0 :=
      (and_shift_ne_zero _ _).mpr hbit1
    have h0 : reverse_bits (bm.getD r 0) ≠ 0 := by
      intro h
      rw [h] at hbit1
      simp at hbit1
    rw [if_neg h0, if_pos hcond, ht]

/-- Scanning the all-zero bitmap produces no tiles. -/
theorem collect_tiles_zero {Pix : Type} (frame : Image Pix) (xb yb : Nat) :
    collect_tiles frame (List.replicate 16 0) xb yb = [] := by
  rw [List.eq_nil_iff_forall_not_mem]
  intro t ht
  rw [mem_collect_tiles] at ht
  obtain ⟨r, hr, c, hc, hbit, _⟩ := ht
  have hz : (List.replicate 16 (0 : Nat)).getD r 0 = 0 := by
    rw [List.getD_eq_getElem?_getD, List.getElem?_replicate]
    simp [hr]
  rw [hz] at hbit
  simp at hbit

/-- The partial branch of `push`, written out: taken exactly when
`current < limits`, it bumps the counter, stores the pushed frame and
timestamp, and returns the tiles collected from the marked diff bitmap. -/
theorem push_partial_eq {Pix : Type} [DecidableEq Pix] (ctx : FrameContext Pix)
    (ts : Nat) (frame : Image Pix) (h : ctx.current < ctx.limits) :
    ctx.push ts frame =
      ({ ctx with current := ctx.current + 1, timestamp := ts, frame := frame },
        Frame.PartialFrame (collect_tiles frame
          (mark_diffs (pixel_diffs frame ctx.frame)
            (round_to_size 16 ctx.width) (round_to_size 16 ctx.height))
          (round_to_size 16 ctx.width) (round_to_size 16 ctx.height))) := by
  rw [FrameContext.push, if_pos h]

/-- The keyframe branch of `push`, written out: taken exactly when
`current ≥ limits`, it resets the counter, stores the pushed frame and
timestamp, and returns the whole pushed frame. -/
theorem push_keyframe_eq {Pix : Type} [DecidableEq Pix] (ctx : FrameContext Pix)
    (ts : Nat) (frame : Image Pix) (h : ¬ ctx.current < ctx.limits) :
    ctx.push ts frame =
      ({ ctx with current := 0, timestamp := ts, frame := frame },
        Frame.KeyFrame frame) := by
  rw [FrameContext.push, if_neg h]

/-- A pixel coordinate inside a `u32`-sized dimension maps to one of the 16
grid cells along that axis. -/
theorem div_base_lt_16 (len v : Nat) (hlt : v < len) (h32 : len < 2 ^ 32) :
    v / round_to_size 16 len < 16 := by
  have hgap : (2 : Nat) ^ 32 + 15 < 2 ^ 64 := by norm_num
  have h64 : len + 15 < 2 ^ 64 := by omega
  have hpos : 0 < len := by omega
  have hb := round_pos len h64 hpos
  have hcov := le_16_mul_round len h64
  exact (Nat.div_lt_iff_lt_mul hb).mpr (Nat.lt_of_lt_of_le hlt hcov)

/-- Tiles of the partial branch, characterised by differing pixels: the tile
for grid cell `(r, c)` is collected iff some differing pixel's coordinates
map to row `r` and column `c` by integer division by the block extents. -/
theorem mem_push_tiles {Pix : Type} [DecidableEq Pix] (ctx : FrameContext Pix)
    (frame : Image Pix) (hw : frame.width = ctx.width)
    (w32 : ctx.width < 2 ^ 32) (t : PartialFrame Pix) :
    t ∈ collect_tiles frame
        (mark_diffs (pixel_diffs frame ctx.frame)
          (round_to_size 16 ctx.width) (round_to_size 16 ctx.height))
        (round_to_size 16 ctx.width) (round_to_size 16 ctx.height) ↔
      ∃ r, r < 16 ∧ ∃ c, c < 16 ∧
        (∃ d ∈ pixel_diffs frame ctx.frame,
          d.2 / round_to_size 16 ctx.height = r ∧
          d.1 / round_to_size 16 ctx.width = c) ∧
        t = ⟨c * round_to_size 16 ctx.width, r * round_to_size 16 ctx.height,
          crop_imm frame (c * round_to_size 16 ctx.width)
            (r * round_to_size 16 ctx.height)
            (round_to_size 16 ctx.width) (round_to_size 16 ctx.height)⟩ := by
  rw [mem_collect_tiles]
  constructor
  · rintro ⟨r, hr, c, hc, hbit, ht⟩
    rw [mark_diffs_testBit _ _ _ _ hr] at hbit
    obtain ⟨d, hd, hdr, hdc⟩ := hbit
    have hx : d.1 < ctx.width := hw ▸ ((mem_pixel_diffs _ _ _).mp hd).1
    have hdivlt : d.1 / round_to_size 16 ctx.width < 16 := div_base_lt_16 _ _ hx w32
    have hc1 : d.1 / round_to_size 16 ctx.width = c := by omega
    exact ⟨r, hr, c, hc, ⟨d, hd, hdr, hc1⟩, ht⟩
  · rintro ⟨r, hr, c, hc, ⟨d, hd, hdr, hdc⟩, ht⟩
    refine ⟨r, hr, c, hc, ?_, ht⟩
    rw [mark_diffs_testBit _ _ _ _ hr]
    exact ⟨d, hd, hdr, by rw [hdc]⟩

/-- C1: with `current < limits` and a pushed frame of the baseline's
dimensions, `push` returns `PartialFrame(tiles)` in which the tile for grid
block `(row, col)` is present iff some pixel inside that block's extent
(rows `[row*cellH, (row+1)*cellH)`, columns `[col*cellW, (col+1)*cellW)`,
with `cellH = ceil(height/16)` and `cellW = ceil(width/16)`) differs between
the stored baseline and the pushed frame. -/
theorem push_tile_present_iff {Pix : Type} [DecidableEq Pix] (ctx : FrameContext Pix)
    (ts : Nat) (frame : Image Pix)
    (hcur : ctx.current < ctx.limits)
    (hw : frame.width = ctx.width) (hh : frame.height = ctx.height)
    (w32 : ctx.width < 2 ^ 32) (h32 : ctx.height < 2 ^ 32)
    (row col : Nat) (hrow : row < 16) (hcol : col < 16) :
    ∃ tiles, (ctx.push ts frame).2 = Frame.PartialFrame tiles ∧
      ((∃ t ∈ tiles, t.x = col * ((ctx.width + 15) / 16) ∧
          t.y = row * ((ctx.height + 15) / 16)) ↔
        ∃ px py, px < ctx.width ∧ py < ctx.height ∧
          row * ((ctx.height + 15) / 16) ≤ py ∧
          py < (row + 1) * ((ctx.height + 15) / 16) ∧
          col * ((ctx.width + 15) / 16) ≤ px ∧
          px < (col + 1) * ((ctx.width + 15) / 16) ∧
          frame.pixel px py ≠ ctx.frame.pixel px py) := by
  have hgap : (2 : Nat) ^ 32 + 15 < 2 ^ 64 := by norm_num
  have hw64 : ctx.width + 15 < 2 ^ 64 := by omega
  have hh64 : ctx.height + 15 < 2 ^ 64 := by omega
  have hxb : round_to_size 16 ctx.width = (ctx.width + 15) / 16 :=
    round_to_size_16_eq _ hw64
  have hyb : round_to_size 16 ctx.height = (ctx.height + 15) / 16 :=
    round_to_size_16_eq _ hh64
  rw [push_partial_eq _ _ _ hcur]
  refine ⟨_, rfl, ?_⟩
  constructor
  · rintro ⟨t, htmem, htx, hty⟩
    rw [mem_push_tiles _ _ hw w32] at htmem
    obtain ⟨r, hr, c, hc, ⟨d, hd, hdr, hdc⟩, ht⟩ := htmem
    obtain ⟨hdx, hdy, hdne⟩ := (mem_pixel_diffs _ _ _).mp hd
    rw [hw] at hdx
    rw [hh] at hdy
    have hwpos : 0 < ctx.width := by omega
    have hhpos : 0 < ctx.height := by omega
    have hxb0 : 0 < round_to_size 16 ctx.width := round_pos _ hw64 hwpos
    have hyb0 : 0 < round_to_size 16 ctx.height := round_pos _ hh64 hhpos
    have htx' : t.x = c * round_to_size 16 ctx.width := by rw [ht]
    have hty' : t.y = r * round_to_size 16 ctx.height := by rw [ht]
    have hceq : c = col := by
      apply Nat.eq_of_mul_eq_mul_right hxb0
      rw [← htx', htx, hxb]
    have hreq : r = row := by
      apply Nat.eq_of_mul_eq_mul_right hyb0
      rw [← hty', hty, hyb]
    refine ⟨d.1, d.2, hdx, hdy, ?_, ?_, ?_, ?_, hdne⟩
    · rw [← hyb, ← hreq]
      exact (Nat.le_div_iff_mul_le hyb0).mp (Nat.le_of_eq hdr.symm)
    · rw [← hyb, ← hreq]
      exact (Nat.div_lt_iff_lt_mul hyb0).mp (by omega)
    · rw [← hxb, ← hceq]
      exact (Nat.le_div_iff_mul_le hxb0).mp (Nat.le_of_eq hdc.symm)
    · rw [← hxb, ← hceq]
      exact (Nat.div_lt_iff_lt_mul hxb0).mp (by omega)
  · rintro ⟨px, py, hpx, hpy, hy1, hy2, hx1, hx2, hne⟩
    have hd : (px, py) ∈ pixel_diffs frame ctx.frame := by
      rw [mem_pixel_diffs, hw, hh]
      exact ⟨hpx, hpy, hne⟩
    have hdc : px / round_to_size 16 ctx.width = col := by
      rw [hxb]
      exact Nat.div_eq_of_lt_le hx1 hx2
    have hdr : py / round_to_size 16 ctx.height = row := by
      rw [hyb]
      exact Nat.div_eq_of_lt_le hy1 hy2
    refine ⟨_, (mem_push_tiles _ _ hw w32 _).mpr
      ⟨row, hrow, col, hcol, ⟨(px, py), hd, hdr, hdc⟩, rfl⟩, ?_, ?_⟩
    · rw [hxb]
    · rw [hyb]

/-- Witness for C1 at a concrete input: 2x2 baseline, push differing at
pixel (1, 1), grid block (1, 1). -/
theorem push_tile_present_iff_witness :
    ∃ tiles, (ctxP.push 2 img2d).2 = Frame.PartialFrame tiles ∧
      ((∃ t ∈ tiles, t.x = 1 * ((ctxP.width + 15) / 16) ∧
          t.y = 1 * ((ctxP.height + 15) / 16)) ↔
        ∃ px py, px < ctxP.width ∧ py < ctxP.height ∧
          1 * ((ctxP.height + 15) / 16) ≤ py ∧
          py < (1 + 1) * ((ctxP.height + 15) / 16) ∧
          1 * ((ctxP.width + 15) / 16) ≤ px ∧
          px < (1 + 1) * ((ctxP.width + 15) / 16) ∧
          img2d.pixel px py ≠ ctxP.frame.pixel px py) :=
  push_tile_present_iff ctxP 2 img2d (by decide) rfl rfl (by decide)
    (by decide) 1 1 (by decide) (by decide)

/-- C2: when `current ≥ limits`, `push` returns the entire pushed frame as a
`KeyFrame` (no diff, no tiles) and resets `current` to 0, regardless of the
frame's content; since `current ≥ 0` always, `limits = 0` makes every push a
keyframe. -/
theorem push_keyframe_of_limit {Pix : Type} [DecidableEq Pix]
    (ctx : FrameContext Pix) (ts : Nat) (frame : Image Pix)
    (h : ctx.limits ≤ ctx.current) :
    (ctx.push ts frame).2 = Frame.KeyFrame frame ∧
      (ctx.push ts frame).1.current = 0 := by
  rw [push_keyframe_eq _ _ _ (Nat.not_lt.mpr h)]
  exact ⟨rfl, rfl⟩

/-- Witness for C2: `limits = 0` engine, pushing a frame that differs from
the baseline still yields a keyframe. -/
theorem push_keyframe_of_limit_witness :
    (ctxK.push 5 img2d).2 = Frame.KeyFrame img2d ∧
      (ctxK.push 5 img2d).1.current = 0 :=
  push_keyframe_of_limit ctxK 5 img2d (by decide)

/-- C3: with `current < limits`, pushing a frame pixel-identical to the
baseline returns `PartialFrame []` — valid output, not an error and not a
forced keyframe — while `current` increments by 1. -/
theorem push_identical_partial_empty {Pix : Type} [DecidableEq Pix]
    (ctx : FrameContext Pix) (ts : Nat) (frame : Image Pix)
    (hcur : ctx.current < ctx.limits)
    (hw : frame.width = ctx.width) (hh : frame.height = ctx.height)
    (hpix : ∀ x, x < ctx.width → ∀ y, y < ctx.height →
      frame.pixel x y = ctx.frame.pixel x y) :
    (ctx.push ts frame).2 = Frame.PartialFrame [] ∧
      (ctx.push ts frame).1.current = ctx.current + 1 := by
  have hres : pixel_diffs frame ctx.frame = [] :=
    pixel_diffs_nil _ _ (fun x hx y hy => hpix x (hw ▸ hx) y (hh ▸ hy))
  rw [push_partial_eq _ _ _ hcur]
  refine ⟨?_, rfl⟩
  show Frame.PartialFrame _ = _
  rw [hres]
  exact congrArg Frame.PartialFrame (collect_tiles_zero _ _ _)

/-- Witness for C3: pushing the baseline itself. -/
theorem push_identical_partial_empty_witness :
    (ctxP.push 2 img2).2 = Frame.PartialFrame [] ∧
      (ctxP.push 2 img2).1.current = ctxP.current + 1 :=
  push_identical_partial_empty ctxP 2 img2 (by decide) rfl rfl
    (fun _ _ _ _ => rfl)

/-- C4: `current` starts at 0 (hence `0 ≤ current ≤ limits` initially), stays
at most `limits` after every push, is 0 after a push iff that push returned a
keyframe, and increases by exactly 1 on every partial-returning push. -/
theorem current_counter_law {Pix : Type} [DecidableEq Pix]
    (ctx : FrameContext Pix) (ts ts0 lim : Nat) (f0 frame : Image Pix) :
    (FrameContext.new ts0 lim f0).current = 0 ∧
    (FrameContext.new ts0 lim f0).current ≤ lim ∧
    0 ≤ (ctx.push ts frame).1.current ∧
    (ctx.push ts frame).1.current ≤ ctx.limits ∧
    ((ctx.push ts frame).1.current = 0 ↔
      ∃ img, (ctx.push ts frame).2 = Frame.KeyFrame img) ∧
    (∀ tiles, (ctx.push ts frame).2 = Frame.PartialFrame tiles →
      (ctx.push ts frame).1.current = ctx.current + 1) := by
  by_cases h : ctx.current < ctx.limits
  · rw [push_partial_eq _ _ _ h]
    refine ⟨rfl, Nat.zero_le _, Nat.zero_le _, ?_, ?_, fun _ _ => rfl⟩
    · show ctx.current + 1 ≤ ctx.limits
      omega
    · constructor
      · intro h0
        have h1 : ctx.current + 1 = 0 := h0
        omega
      · rintro ⟨img, himg⟩
        exact Frame.noConfusion himg
  · rw [push_keyframe_eq _ _ _ h]
    refine ⟨rfl, Nat.zero_le _, Nat.zero_le _, Nat.zero_le _, ?_, ?_⟩
    · exact ⟨fun _ => ⟨frame, rfl⟩, fun _ => rfl⟩
    · intro tiles htiles
      exact Frame.noConfusion htiles

/-- Witness for C4 at a concrete input: applying the counter law to a push of
the baseline itself (a partial-returning push) shows the counter stepping
from 0 to 1 while staying within the limit. -/
theorem current_counter_law_witness :
    (ctxP.push 2 img2).1.current = ctxP.current + 1 ∧
      (ctxP.push 2 img2).1.current ≤ ctxP.limits :=
  ⟨(current_counter_law ctxP 2 1 7 img1 img2).2.2.2.2.2 []
      (congrArg Frame.PartialFrame (collect_tiles_zero img2 1 1)),
    (current_counter_law ctxP 2 1 7 img1 img2).2.2.2.1⟩

/-- C7: every push, on both branches, stores the pushed frame as the new
baseline and the pushed timestamp, and leaves `limits`, `width` and `height`
unchanged. -/
theorem push_updates_state {Pix : Type} [DecidableEq Pix]
    (ctx : FrameContext Pix) (ts : Nat) (frame : Image Pix) :
    (ctx.push ts frame).1.frame = frame ∧
    (ctx.push ts frame).1.timestamp = ts ∧
    (ctx.push ts frame).1.limits = ctx.limits ∧
    (ctx.push ts frame).1.width = ctx.width ∧
    (ctx.push ts frame).1.height = ctx.height := by
  by_cases h : ctx.current < ctx.limits
  · rw [push_partial_eq _ _ _ h]
    exact ⟨rfl, rfl, rfl, rfl, rfl⟩
  · rw [push_keyframe_eq _ _ _ h]
    exact ⟨rfl, rfl, rfl, rfl, rfl⟩

/-- Counterexample for C8: the code has no error channel. Pushing a 3x3
frame into an engine whose stored baseline is 2x2 (a dimension mismatch) and
pushing a 0x0 frame (a degenerate image) both return ordinary `Frame`
results — here keyframes — instead of any `DimensionMismatch` or
`DegenerateImage` error. -/
theorem push_no_error_counterexample :
    (ctxK.push 2 img3).2 = Frame.KeyFrame img3 ∧
    (ctxK.push 2 img0).2 = Frame.KeyFrame img0 ∧
    img3.width ≠ ctxK.width ∧ img0.width = 0 := by
  refine ⟨?_, ?_, by decide, rfl⟩
  · rw [push_keyframe_eq _ _ _ (by decide)]
  · rw [push_keyframe_eq _ _ _ (by decide)]

/-- C8 (amended): `push` performs no dimension or degeneracy check and never
returns an error value. On the keyframe branch (`current ≥ limits`) any
pushed frame — dimension-mismatched or zero-sized included — is returned
wholesale as `KeyFrame` (that branch reads no pixels); on the partial branch,
for a pushed frame with the baseline's dimensions, an ordinary
`PartialFrame` is returned. (A larger mismatched frame on the partial branch
panics inside `imageproc::utils::pixel_diffs` rather than returning an
error, so it is outside this statement's scope.) -/
theorem push_no_error_check {Pix : Type} [DecidableEq Pix]
    (ctx : FrameContext Pix) (ts : Nat) (frame : Image Pix) :
    (ctx.limits ≤ ctx.current → (ctx.push ts frame).2 = Frame.KeyFrame frame) ∧
    (ctx.current < ctx.limits → frame.width = ctx.width →
      frame.height = ctx.height →
      ∃ tiles, (ctx.push ts frame).2 = Frame.PartialFrame tiles) := by
  constructor
  · intro h
    rw [push_keyframe_eq _ _ _ (Nat.not_lt.mpr h)]
  · intro h _ _
    rw [push_partial_eq _ _ _ h]
    exact ⟨_, rfl⟩

/-- Witness for the amended C8: a dimension-mismatched push on the keyframe
branch returns a keyframe, and an equal-dimensions push on the partial
branch returns a partial frame. -/
theorem push_no_error_check_witness :
    (ctxK.push 2 img3).2 = Frame.KeyFrame img3 ∧
    ∃ tiles, (ctxP.push 2 img2d).2 = Frame.PartialFrame tiles :=
  ⟨(push_no_error_check ctxK 2 img3).1 (by decide),
    (push_no_error_check ctxP 2 img2d).2 (by decide) rfl rfl⟩

/-- C9: on every `len` with `len + 15` in `usize` range, the bit trick
`((len + 15) & !15) / 16` equals the ceiling division `ceil(len / 16)`:
it equals `(len + 15) / 16`, sixteen such blocks cover `len`, and it is the
least such block count. The block extents used by `push` are exactly
`round_to_size 16 height` and `round_to_size 16 width` of the cached
baseline dimensions. -/
theorem round_to_size_is_ceil (len : Nat) (h : len + 15 < 2 ^ 64) :
    round_to_size 16 len = (len + 15) / 16 ∧
    len ≤ 16 * round_to_size 16 len ∧
    ∀ k, len ≤ 16 * k → round_to_size 16 len ≤ k := by
  refine ⟨round_to_size_16_eq len h, le_16_mul_round len h, ?_⟩
  intro k hk
  rw [round_to_size_16_eq len h]
  have hlt : (len + 15) / 16 < k + 1 :=
    (Nat.div_lt_iff_lt_mul (by norm_num)).mpr (by omega)
  omega

/-- Witness for C9 at `len = 20`: `round_to_size 16 20 = 2 = ceil(20/16)`. -/
theorem round_to_size_is_ceil_witness :
    round_to_size 16 20 = (20 + 15) / 16 ∧
    20 ≤ 16 * round_to_size 16 20 ∧
    ∀ k, 20 ≤ 16 * k → round_to_size 16 20 ≤ k :=
  round_to_size_is_ceil 20 (by norm_num)

/-- C10: the partial branch is total. For a pushed frame with the baseline's
dimensions, every differing pixel yields positive block extents (so the
divisions `diff.x / x_base`, `diff.y / y_base` never divide by zero), block
indices below 16 (so the bitmap index and the shift
`(BLOCK_SIZE - 1) - diff.x / x_base` stay in range), and a zero-width or
zero-height frame yields `PartialFrame []` rather than any failure. -/
theorem push_partial_branch_total {Pix : Type} [DecidableEq Pix]
    (ctx : FrameContext Pix) (ts : Nat) (frame : Image Pix)
    (hcur : ctx.current < ctx.limits)
    (hw : frame.width = ctx.width) (hh : frame.height = ctx.height)
    (w32 : ctx.width < 2 ^ 32) (h32 : ctx.height < 2 ^ 32) :
    (∀ d ∈ pixel_diffs frame ctx.frame,
      0 < round_to_size 16 ctx.width ∧ 0 < round_to_size 16 ctx.height ∧
      d.1 / round_to_size 16 ctx.width < 16 ∧
      d.2 / round_to_size 16 ctx.height < 16 ∧
      15 - d.1 / round_to_size 16 ctx.width ≤ 15) ∧
    ((ctx.width = 0 ∨ ctx.height = 0) →
      (ctx.push ts frame).2 = Frame.PartialFrame []) := by
  have hgap : (2 : Nat) ^ 32 + 15 < 2 ^ 64 := by norm_num
  have hw64 : ctx.width + 15 < 2 ^ 64 := by omega
  have hh64 : ctx.height + 15 < 2 ^ 64 := by omega
  constructor
  · intro d hd
    obtain ⟨hdx, hdy, _⟩ := (mem_pixel_diffs _ _ _).mp hd
    rw [hw] at hdx
    rw [hh] at hdy
    have hwpos : 0 < ctx.width := by omega
    have hhpos : 0 < ctx.height := by omega
    exact ⟨round_pos _ hw64 hwpos, round_pos _ hh64 hhpos,
      div_base_lt_16 _ _ hdx w32, div_base_lt_16 _ _ hdy h32, Nat.sub_le 15 _⟩
  · intro hz
    have hres : pixel_diffs frame ctx.frame = [] := by
      rw [List.eq_nil_iff_forall_not_mem]
      intro d hd
      obtain ⟨hdx, hdy, _⟩ := (mem_pixel_diffs _ _ _).mp hd
      rw [hw] at hdx
      rw [hh] at hdy
      rcases hz with h0 | h0 <;> omega
    rw [push_partial_eq _ _ _ hcur]
    show Frame.PartialFrame _ = _
    rw [hres]
    exact congrArg Frame.PartialFrame (collect_tiles_zero _ _ _)

/-- Witness for C10: engine over a degenerate 0x0 baseline, pushing a 0x0
frame, yields `PartialFrame []` on the partial branch. -/
theorem push_partial_branch_total_witness :
    (∀ d ∈ pixel_diffs img0 ctxZ.frame,
      0 < round_to_size 16 ctxZ.width ∧ 0 < round_to_size 16 ctxZ.height ∧
      d.1 / round_to_size 16 ctxZ.width < 16 ∧
      d.2 / round_to_size 16 ctxZ.height < 16 ∧
      15 - d.1 / round_to_size 16 ctxZ.width ≤ 15) ∧
    ((ctxZ.width = 0 ∨ ctxZ.height = 0) →
      (ctxZ.push 2 img0).2 = Frame.PartialFrame []) :=
  push_partial_branch_total ctxZ 2 img0 (by decide) rfl rfl
    (by decide) (by decide)

/-- C5: every tile of a `PartialFrame` result has its pixel origin strictly
inside the image, and its buffer dimensions never exceed the pixels remaining
from that origin to the image edge — edge blocks are clipped by the crop. -/
theorem push_tiles_within_bounds {Pix : Type} [DecidableEq Pix]
    (ctx : FrameContext Pix) (ts : Nat) (frame : Image Pix)
    (hcur : ctx.current < ctx.limits)
    (hw : frame.width = ctx.width) (hh : frame.height = ctx.height)
    (w32 : ctx.width < 2 ^ 32) (h32 : ctx.height < 2 ^ 32) :
    ∃ tiles, (ctx.push ts frame).2 = Frame.PartialFrame tiles ∧
      ∀ t ∈ tiles, t.x < ctx.width ∧ t.y < ctx.height ∧
        t.image.width ≤ ctx.width - t.x ∧ t.image.height ≤ ctx.height - t.y := by
  have hgap : (2 : Nat) ^ 32 + 15 < 2 ^ 64 := by norm_num
  have hw64 : ctx.width + 15 < 2 ^ 64 := by omega
  have hh64 : ctx.height + 15 < 2 ^ 64 := by omega
  rw [push_partial_eq _ _ _ hcur]
  refine ⟨_, rfl, ?_⟩
  intro t htmem
  rw [mem_push_tiles _ _ hw w32] at htmem
  obtain ⟨r, hr, c, hc, ⟨d, hd, hdr, hdc⟩, ht⟩ := htmem
  obtain ⟨hdx, hdy, _⟩ := (mem_pixel_diffs _ _ _).mp hd
  rw [hw] at hdx
  rw [hh] at hdy
  have hwpos : 0 < ctx.width := by omega
  have hhpos : 0 < ctx.height := by omega
  have hxb0 : 0 < round_to_size 16 ctx.width := round_pos _ hw64 hwpos
  have hyb0 : 0 < round_to_size 16 ctx.height := round_pos _ hh64 hhpos
  have hxorig : c * round_to_size 16 ctx.width ≤ d.1 :=
    (Nat.le_div_iff_mul_le hxb0).mp (Nat.le_of_eq hdc.symm)
  have hyorig : r * round_to_size 16 ctx.height ≤ d.2 :=
    (Nat.le_div_iff_mul_le hyb0).mp (Nat.le_of_eq hdr.symm)
  have htx : t.x = c * round_to_size 16 ctx.width := by rw [ht]
  have hty : t.y = r * round_to_size 16 ctx.height := by rw [ht]
  have hxlt : t.x < ctx.width := by omega
  have hylt : t.y < ctx.height := by omega
  refine ⟨hxlt, hylt, ?_, ?_⟩
  · have himg : t.image.width =
        min (round_to_size 16 ctx.width)
          (frame.width - min (c * round_to_size 16 ctx.width) frame.width) := by
      rw [ht]
      rfl
    have hclt : c * round_to_size 16 ctx.width < ctx.width :=
      Nat.lt_of_le_of_lt hxorig hdx
    have hmin2 : min (c * round_to_size 16 ctx.width) ctx.width =
        c * round_to_size 16 ctx.width := Nat.min_eq_left (Nat.le_of_lt hclt)
    rw [himg, hw, hmin2, htx]
    exact Nat.min_le_right _ _
  · have himg : t.image.height =
        min (round_to_size 16 ctx.height)
          (frame.height - min (r * round_to_size 16 ctx.height) frame.height) := by
      rw [ht]
      rfl
    have hrlt : r * round_to_size 16 ctx.height < ctx.height :=
      Nat.lt_of_le_of_lt hyorig hdy
    have hmin2 : min (r * round_to_size 16 ctx.height) ctx.height =
        r * round_to_size 16 ctx.height := Nat.min_eq_left (Nat.le_of_lt hrlt)
    rw [himg, hh, hmin2, hty]
    exact Nat.min_le_right _ _

/-- Witness for C5 at a concrete input: 2x2 baseline, push differing at
pixel (1, 1). -/
theorem push_tiles_within_bounds_witness :
    ∃ tiles, (ctxP.push 2 img2d).2 = Frame.PartialFrame tiles ∧
      ∀ t ∈ tiles, t.x < ctxP.width ∧ t.y < ctxP.height ∧
        t.image.width ≤ ctxP.width - t.x ∧ t.image.height ≤ ctxP.height - t.y :=
  push_tiles_within_bounds ctxP 2 img2d (by decide) rfl rfl (by decide) (by decide)

/-- If the scan loop's option for grid cell `(r, c)` produced a tile, that
tile's origin is `(c * xb, r * yb)`. -/
theorem collect_opt_shape {Pix : Type} (frame : Image Pix) (bm : List Nat)
    (xb yb r c : Nat) (t : PartialFrame Pix)
    (h : (if reverse_bits (bm.getD r 0) = 0 then none
          else if reverse_bits (bm.getD r 0) &&& (1 <<< c) ≠ 0 then
            some (⟨c * xb, r * yb,
              crop_imm frame (c * xb) (r * yb) xb yb⟩ : PartialFrame Pix)
          else none) = some t) :
    t.x = c * xb ∧ t.y = r * yb := by
  by_cases h0 : reverse_bits (bm.getD r 0) = 0
  · rw [if_pos h0] at h
    cases h
  · rw [if_neg h0] at h
    by_cases hc : reverse_bits (bm.getD r 0) &&& (1 <<< c) ≠ 0
    · rw [if_pos hc] at h
      rw [← Option.some.inj h]
      exact ⟨rfl, rfl⟩
    · rw [if_neg hc] at h
      cases h

/-- C6: the tiles of a `PartialFrame` result are emitted in row-major order —
strictly ascending `y`, and within equal `y`, strictly ascending `x` — the
reversed bit indexing of the per-row bitmap cancelling between the marking
and the scanning loops. -/
theorem push_tiles_row_major {Pix : Type} [DecidableEq Pix]
    (ctx : FrameContext Pix) (ts : Nat) (frame : Image Pix)
    (hcur : ctx.current < ctx.limits)
    (hw : frame.width = ctx.width) (hh : frame.height = ctx.height)
    (w32 : ctx.width < 2 ^ 32) (h32 : ctx.height < 2 ^ 32) :
    ∃ tiles, (ctx.push ts frame).2 = Frame.PartialFrame tiles ∧
      List.Pairwise (fun s t : PartialFrame Pix =>
        s.y < t.y ∨ (s.y = t.y ∧ s.x < t.x)) tiles := by
  have hgap : (2 : Nat) ^ 32 + 15 < 2 ^ 64 := by norm_num
  have hw64 : ctx.width + 15 < 2 ^ 64 := by omega
  have hh64 : ctx.height + 15 < 2 ^ 64 := by omega
  rw [push_partial_eq _ _ _ hcur]
  refine ⟨_, rfl, ?_⟩
  by_cases hdeg : pixel_diffs frame ctx.frame = []
  · rw [hdeg]
    have hnil : collect_tiles frame
        (mark_diffs [] (round_to_size 16 ctx.width) (round_to_size 16 ctx.height))
        (round_to_size 16 ctx.width) (round_to_size 16 ctx.height) = [] :=
      collect_tiles_zero frame _ _
    rw [hnil]
    exact List.Pairwise.nil
  · obtain ⟨d, hd⟩ := List.exists_mem_of_ne_nil _ hdeg
    obtain ⟨hdx, hdy, _⟩ := (mem_pixel_diffs _ _ _).mp hd
    rw [hw] at hdx
    rw [hh] at hdy
    have hwpos : 0 < ctx.width := by omega
    have hhpos : 0 < ctx.height := by omega
    have hxb0 : 0 < round_to_size 16 ctx.width := round_pos _ hw64 hwpos
    have hyb0 : 0 < round_to_size 16 ctx.height := round_pos _ hh64 hhpos
    simp only [collect_tiles]
    rw [List.pairwise_flatMap]
    constructor
    · intro a _
      refine List.Pairwise.filterMap _ ?_ (List.pairwise_lt_range 16)
      intro c c' hlt b hb b' hb'
      rw [Option.mem_def] at hb hb'
      obtain ⟨hbx, hby⟩ := collect_opt_shape frame _ _ _ a c b hb
      obtain ⟨hbx', hby'⟩ := collect_opt_shape frame _ _ _ a c' b' hb'
      right
      refine ⟨by rw [hby, hby'], ?_⟩
      rw [hbx, hbx']
      exact (Nat.mul_lt_mul_right hxb0).mpr hlt
    · refine List.Pairwise.imp ?_ (List.pairwise_lt_range 16)
      intro a1 a2 hlt x hx y hy
      obtain ⟨c1, _, hcx⟩ := List.mem_filterMap.mp hx
      obtain ⟨c2, _, hcy⟩ := List.mem_filterMap.mp hy
      obtain ⟨hx1, hy1⟩ := collect_opt_shape frame _ _ _ a1 c1 x hcx
      obtain ⟨hx2, hy2⟩ := collect_opt_shape frame _ _ _ a2 c2 y hcy
      left
      rw [hy1, hy2]
      exact (Nat.mul_lt_mul_right hyb0).mpr hlt

/-- Witness for C6 at a concrete input: 2x2 baseline, push differing at
pixel (1, 1). -/
theorem push_tiles_row_major_witness :
    ∃ tiles, (ctxP.push 2 img2d).2 = Frame.PartialFrame tiles ∧
      List.Pairwise (fun s t : PartialFrame Nat =>
        s.y < t.y ∨ (s.y = t.y ∧ s.x < t.x)) tiles :=
  push_tiles_row_major ctxP 2 img2d (by decide) rfl rfl (by decide) (by decide)
